import Mathlib

set_option maxHeartbeats 1000000

namespace RecipeApp

/-! ## Data model

Shallow embedding of the recipe application (app/recipe/views.py and
app/recipe/serializers.py).  The model classes themselves (core.models) are not part of
src, so the record shapes are taken from the specification's data-model section.
-/

/-- Modelled from the spec: the shape of a Tag / Ingredient record (section 3; the model
definitions of core.models are not under src).  Tag and Ingredient have the same shape:
owned by exactly one principal, with a name. -/
structure AttrRec where
  id : Nat
  user : Nat
  name : String
deriving DecidableEq

/-- Modelled from the spec: the shape of a Recipe record (section 3; core.models is not
under src).  The tags and ingredients fields hold the identifiers of the attached records
of the two many-to-many association sets. -/
structure RecipeRec where
  id : Nat
  user : Nat
  title : String
  time_minutes : Nat
  price : Int
  link : String
  description : String
  tags : List Nat
  ingredients : List Nat
deriving DecidableEq

/-- One kind of attribute table (the Tag table or the Ingredient table) together with the
next primary key the store will hand out. -/
structure Store where
  recs : List AttrRec
  nextId : Nat
deriving DecidableEq

/-- The database state touched by the serializer operations: the Tag table, the
Ingredient table and the next Recipe primary key. -/
structure DB where
  tagStore : Store
  ingredientStore : Store
  nextRecipeId : Nat
deriving DecidableEq

/-! ## Recipe list filtering (app/recipe/views.py, RecipeViewSet) -/

/-- Decimal digit test for the integer parsing below. -/
def isDigit (c : Char) : Bool :=
  '0' ≤ c && c ≤ '9'

/-- Value of a nonempty run of characters that must all be decimal digits; None as soon
as a non-digit appears. -/
def digitsVal (acc : Nat) : List Char → Option Nat
  | [] => some acc
  | c :: cs => if isDigit c then digitsVal (acc * 10 + (c.toNat - 48)) cs else none

/-- Value of a digit run that must be nonempty. -/
def digitsToNat? : List Char → Option Nat
  | [] => none
  | cs => digitsVal 0 cs

/-- Whitespace as stripped by Python's int() around its argument. -/
def isSpaceChar (c : Char) : Bool :=
  c == ' ' || c == '\t' || c == '\n' || c == '\r'

/-- Strip whitespace from both ends of a character list. -/
def stripChars (cs : List Char) : List Char :=
  ((cs.dropWhile isSpaceChar).reverse.dropWhile isSpaceChar).reverse

/-- Python's int() conversion of one query-parameter entry, over the character list of
the entry: surrounding whitespace is ignored, an optional single sign is allowed, and at
least one decimal digit is required; anything else raises ValueError (the None case).
Digit-group underscores are not modelled. -/
def pyIntChars? (cs : List Char) : Option Int :=
  match stripChars cs with
  | [] => none
  | '+' :: rest => (digitsToNat? rest).map Int.ofNat
  | '-' :: rest => (digitsToNat? rest).map (fun n => -(n : Int))
  | rest => (digitsToNat? rest).map Int.ofNat

/-- Python's int() on a string. -/
def pyInt? (s : String) : Option Int :=
  pyIntChars? s.data

/-- Python's str.split on the comma over the character list of the query string: the comma count
plus one groups, in order, each possibly empty. -/
def splitOnComma (cs : List Char) : List (List Char) :=
  match cs with
  | [] => [[]]
  | c :: rest =>
    let r := splitOnComma rest
    if c = ',' then [] :: r
    else
      match r with
      | [] => [[c]]
      | g :: gs => (c :: g) :: gs

/-- The list comprehension over entries: convert each entry with int(), aborting the
whole conversion on the first ValueError (the None case). -/
def ints_of_entries : List (List Char) → Option (List Int)
  | [] => some []
  | e :: rest =>
    match pyIntChars? e with
    | none => none
    | some i =>
      match ints_of_entries rest with
      | none => none
      | some tl => some (i :: tl)

/-- RecipeViewSet._params_to_ints: split the raw query string on commas and convert each
entry with int(); a ValueError on any entry aborts the whole call (the None case). -/
def params_to_ints (qs : String) : Option (List Int) :=
  ints_of_entries (splitOnComma qs.data)

/-- The association lookup tags__id=tag_id: does the recipe have the tag with this id
attached. -/
def RecipeRec.hasTagId (r : RecipeRec) (i : Int) : Bool :=
  r.tags.any (fun t => (t : Int) == i)

/-- The association lookup ingredients__id=ing_id. -/
def RecipeRec.hasIngredientId (r : RecipeRec) (i : Int) : Bool :=
  r.ingredients.any (fun t => (t : Int) == i)

/-- qs.order_by(id).first(): the first recipe of the list in ascending-identifier
order, i.e. a recipe carrying the minimal identifier, if the list is nonempty. -/
def first_by_ascending_id (rs : List RecipeRec) : Option RecipeRec :=
  rs.foldl
    (fun acc r =>
      match acc with
      | none => some r
      | some m => if r.id < m.id then some r else acc)
    none

/-- The per-id pick base_qs.filter(...=tag_id).order_by(id).first(): the first recipe,
in ascending-identifier order, of the working set having the association. -/
def pick_for_id (hasAssoc : RecipeRec → Int → Bool) (working : List RecipeRec)
    (i : Int) : Option RecipeRec :=
  first_by_ascending_id (working.filter (fun r => hasAssoc r i))

/-- One filtering loop of RecipeViewSet.get_queryset: starting from the empty queryset,
for each requested id take the first (ascending-id) recipe of the working set having the
association and union in the filter base_qs.filter(id=recipe.id).  The accumulated union
of per-id filters over the same base_qs is represented by the list of picked identifiers,
applied to base_qs as a single membership filter at the end. -/
def narrow_one_per_id (hasAssoc : RecipeRec → Int → Bool) (base_qs : List RecipeRec)
    (ids : List Int) : List RecipeRec :=
  let picked : List Nat :=
    ids.foldl
      (fun qs i =>
        match pick_for_id hasAssoc base_qs i with
        | some recipe => qs ++ [recipe.id]
        | none => qs)
      []
  base_qs.filter (fun r => picked.contains r.id)

/-- Descending-identifier order on recipes, as used by order_by(-id). -/
def idDesc (a b : RecipeRec) : Prop :=
  b.id ≤ a.id

instance : DecidableRel idDesc :=
  fun a b => inferInstanceAs (Decidable (b.id ≤ a.id))

instance idDesc_total : IsTotal RecipeRec idDesc :=
  ⟨fun a b => Nat.le_total b.id a.id⟩

instance idDesc_trans : IsTrans RecipeRec idDesc :=
  ⟨fun _ _ _ h1 h2 => Nat.le_trans h2 h1⟩

/-- qs.order_by(-id): sort by descending identifier. -/
def order_by_desc_id (rs : List RecipeRec) : List RecipeRec :=
  List.insertionSort idDesc rs

/-- Worker for de-duplication: drop any row whose identifier was already seen. -/
def distinct_by_id_from (seen : List Nat) : List RecipeRec → List RecipeRec
  | [] => []
  | r :: rs =>
    if seen.contains r.id then distinct_by_id_from seen rs
    else r :: distinct_by_id_from (r.id :: seen) rs

/-- qs.distinct(): de-duplicate rows, keeping the first occurrence of each identifier. -/
def distinct_by_id (l : List RecipeRec) : List RecipeRec :=
  distinct_by_id_from [] l

/-- Processing of one optional filter query parameter in RecipeViewSet.get_queryset.
A missing parameter and the empty string are both falsy in the Python test, so neither
triggers filtering; otherwise the parameter is parsed (None on a parse failure) and the
working set narrowed. -/
def apply_filter_param (hasAssoc : RecipeRec → Int → Bool) (p : Option String)
    (base_qs : List RecipeRec) : Option (List RecipeRec) :=
  match p with
  | none => some base_qs
  | some s =>
    if s = "" then some base_qs
    else
      match params_to_ints s with
      | none => none
      | some ids => some (narrow_one_per_id hasAssoc base_qs ids)

/-- RecipeViewSet.get_queryset: restrict to the authenticated user's recipes, narrow by
the tags parameter, then by the ingredients parameter, and return the working set ordered
by descending identifier and de-duplicated.  None is an uncaught parse failure. -/
def RecipeViewSet_get_queryset (db_recipes : List RecipeRec) (authUser : Nat)
    (tagsParam ingredientsParam : Option String) : Option (List RecipeRec) :=
  match apply_filter_param RecipeRec.hasTagId tagsParam
      (db_recipes.filter (fun r => r.user == authUser)) with
  | none => none
  | some base1 =>
    match apply_filter_param RecipeRec.hasIngredientId ingredientsParam base1 with
    | none => none
    | some base2 => some (distinct_by_id (order_by_desc_id base2))

/-- Descending-name order on attribute records, as used by order_by(-name). -/
def nameDesc (a b : AttrRec) : Prop :=
  b.name ≤ a.name

instance : DecidableRel nameDesc :=
  fun a b => inferInstanceAs (Decidable (b.name ≤ a.name))

instance nameDesc_total : IsTotal AttrRec nameDesc :=
  ⟨fun a b => le_total b.name a.name⟩

instance nameDesc_trans : IsTrans AttrRec nameDesc :=
  ⟨fun _ _ _ h1 h2 => le_trans h2 h1⟩

/-- BaseRecipeAttrViewSet.get_queryset: the tag / ingredient list endpoints return the
records of the authenticated user ordered by descending name. -/
def base_attr_get_queryset (recs : List AttrRec) (authUser : Nat) : List AttrRec :=
  List.insertionSort nameDesc (recs.filter (fun t => t.user == authUser))

/-! ## Specification-side statement of the Recipe Filter (spec section 4.2)

A second rendering of the filter, written from the specification's words, to be compared
with RecipeViewSet_get_queryset above.  It shares the primitive operations (ascending-id
first pick, descending-id ordering, de-duplication, parameter parsing) and differs in the
shape of the narrowing: an explicit two-phase reduction instead of a union accumulated in
a loop.
-/

/-- Modelled from the spec: the two-phase narrowing of section 4.2 and section 9 — phase
one computes, per requested ID, the single best-match recipe (the first, in
ascending-identifier order, of the working set having that association); phase two makes
the working set the union of these at-most-one-per-ID picks. -/
def spec_narrow (hasAssoc : RecipeRec → Int → Bool) (working : List RecipeRec)
    (ids : List Int) : List RecipeRec :=
  let picks : List RecipeRec := ids.filterMap (pick_for_id hasAssoc working)
  working.filter (fun r => picks.any (fun p => p.id == r.id))

/-- Modelled from the spec: one optional filter parameter of section 4.2 — absent or
empty means no narrowing, otherwise every entry is parsed as an integer (a parse failure
fails the call) and the two-phase narrowing is applied. -/
def spec_apply_param (hasAssoc : RecipeRec → Int → Bool) (p : Option String)
    (working : List RecipeRec) : Option (List RecipeRec) :=
  match p with
  | none => some working
  | some s =>
    if s = "" then some working
    else
      match params_to_ints s with
      | none => none
      | some ids => some (spec_narrow hasAssoc working ids)

/-- Modelled from the spec: the full Recipe Filter of section 4.2 — restrict to the
principal's recipes, narrow by tag IDs, then by ingredient IDs on the already-narrowed
set, and de-duplicate and order the final result by descending identifier. -/
def spec_recipe_filter (db_recipes : List RecipeRec) (authUser : Nat)
    (tagsParam ingredientsParam : Option String) : Option (List RecipeRec) :=
  match spec_apply_param RecipeRec.hasTagId tagsParam
      (db_recipes.filter (fun r => r.user == authUser)) with
  | none => none
  | some working1 =>
    match spec_apply_param RecipeRec.hasIngredientId ingredientsParam working1 with
    | none => none
    | some working2 => some (distinct_by_id (order_by_desc_id working2))

/-! ## Entity store operations (spec section 6; Django ORM calls used by serializers.py)
-/

/-- Modelled from the spec: the Entity Store's resolve-or-create keyed by (owner, name)
(the Django objects.get_or_create call of serializers.py).  An existing record with that
owner and name is reused; otherwise a record is created under the given owner with the
next identifier.  As with the store's get, more than one record matching the natural key
is a store-level conflict that propagates as a failure. -/
def Store.get_or_create (s : Store) (user : Nat) (name : String) :
    Except String (AttrRec × Store) :=
  match s.recs.filter (fun t => t.user == user && t.name == name) with
  | [] =>
    let t : AttrRec := ⟨s.nextId, user, name⟩
    .ok (t, ⟨s.recs ++ [t], s.nextId + 1⟩)
  | [t] => .ok (t, s)
  | _ => .error "MultipleObjectsReturned"

/-- Modelled from the spec: attaching a record to a many-to-many association set is
idempotent — attaching an already-attached record is a no-op (section 4.1; the Django
recipe.tags.add call of serializers.py). -/
def m2m_add (attached : List Nat) (i : Nat) : List Nat :=
  if attached.contains i then attached else attached ++ [i]

/-- Number of records of the store with the given owner and name. -/
def Store.countKey (s : Store) (user : Nat) (name : String) : Nat :=
  (s.recs.filter (fun t => t.user == user && t.name == name)).length

/-- Store well-formedness: identifiers are pairwise distinct and below the next
identifier the store will hand out. -/
def Store.WF (s : Store) : Prop :=
  (s.recs.map (fun t => t.id)).Nodup ∧ ∀ t ∈ s.recs, t.id < s.nextId

/-- The natural-key invariant for one principal: among the principal's records, names are
pairwise distinct (so resolve-or-create is unambiguous for that principal). -/
def Store.natKeyUniqueFor (s : Store) (u : Nat) : Prop :=
  (s.recs.filter (fun t => t.user == u)).Pairwise (fun a b => a.name ≠ b.name)

/-- Number of identifiers of an association list whose record in the store has the given
owner and name. -/
def attached_count (s : Store) (attached : List Nat) (u : Nat) (n : String) : Nat :=
  (attached.filter
    (fun tid => s.recs.any (fun t => t.id == tid && t.user == u && t.name == n))).length

/-! ## Nested-resource reconciler (app/recipe/serializers.py, RecipeSerializer) -/

/-- RecipeSerializer._get_or_create_tags and _get_or_create_ingredients, which are
identical up to the store they touch, embedded once over one attribute store: for each
name specification in order, resolve-or-create the record under the authenticated user
and attach it to the recipe's association list.  The returned third component is the list
of names resolved, in resolution order (used to state when resolutions happen relative to
the recipe persist). -/
def get_or_create_attrs (authUser : Nat) (specs : List String) (attached : List Nat)
    (s : Store) : Except String (List Nat × Store × List String) :=
  match specs with
  | [] => .ok (attached, s, [])
  | name :: rest =>
    match s.get_or_create authUser name with
    | .error e => .error e
    | .ok (tagObj, s1) =>
      match get_or_create_attrs authUser rest (m2m_add attached tagObj.id) s1 with
      | .error e => .error e
      | .ok (att, s2, resolved) => .ok (att, s2, name :: resolved)

/-- The validated payload of a recipe create call: the scalar recipe fields plus the
nested tag and ingredient name lists.  A None list means the key is absent from
validated_data, so the serializer's pop falls back to its default. -/
structure CreatePayload where
  title : String
  time_minutes : Nat
  price : Int
  link : String
  description : String
  tags : Option (List String)
  ingredients : Option (List String)

/-- Observable persistence and resolution steps of the creation path, in execution
order. -/
inductive Event where
  | persistRecipe
  | resolveTag (name : String)
  | resolveIngredient (name : String)
deriving DecidableEq

/-- Whether an event is a tag or ingredient resolution. -/
def Event.isResolve : Event → Bool
  | .persistRecipe => false
  | .resolveTag _ => true
  | .resolveIngredient _ => true

/-- RecipeSerializer.create: pop the nested tag and ingredient lists (defaulting to
empty), persist the new recipe row once with Recipe.objects.create, then resolve and
attach the tags and then the ingredients.  The trace lists the persist and the
resolutions in the order they happen. -/
def RecipeSerializer_create (authUser : Nat) (p : CreatePayload) (db : DB) :
    Except String (RecipeRec × DB × List Event) :=
  let tags := p.tags.getD []
  let ingredients := p.ingredients.getD []
  let recipe : RecipeRec :=
    ⟨db.nextRecipeId, authUser, p.title, p.time_minutes, p.price, p.link, p.description,
      [], []⟩
  let db1 : DB := { db with nextRecipeId := db.nextRecipeId + 1 }
  match get_or_create_attrs authUser tags recipe.tags db1.tagStore with
  | .error e => .error e
  | .ok (tagsAttached, tagStore1, resolvedTags) =>
    match get_or_create_attrs authUser ingredients recipe.ingredients
        db1.ingredientStore with
    | .error e => .error e
    | .ok (ingsAttached, ingStore1, resolvedIngs) =>
      .ok ({ recipe with tags := tagsAttached, ingredients := ingsAttached },
        { db1 with tagStore := tagStore1, ingredientStore := ingStore1 },
        Event.persistRecipe ::
          (resolvedTags.map Event.resolveTag ++ resolvedIngs.map Event.resolveIngredient))

/-- A scalar field value, as carried by one remaining validated_data item of an update
call. -/
inductive FieldVal where
  | strVal (s : String)
  | natVal (n : Nat)
  | intVal (i : Int)
deriving DecidableEq

/-- Python setattr on a recipe record: keyed by the attribute name, any attribute of the
record can be assigned, including the owner. -/
def set_attr (r : RecipeRec) (key : String) (v : FieldVal) : RecipeRec :=
  if key = "title" then match v with | .strVal s => { r with title := s } | _ => r
  else if key = "time_minutes" then match v with | .natVal n => { r with time_minutes := n } | _ => r
  else if key = "price" then match v with | .intVal i => { r with price := i } | _ => r
  else if key = "link" then match v with | .strVal s => { r with link := s } | _ => r
  else if key = "description" then match v with | .strVal s => { r with description := s } | _ => r
  else if key = "user" then match v with | .natVal n => { r with user := n } | _ => r
  else r

/-- The writable scalar fields of the recipe serializers: the declared fields, including
the detail serializer's description, minus the read-only id and the nested tags and
ingredients keys popped before the assignment loop.  The owner is not among them, and the
update path passes no extra keyword arguments to save. -/
def writable_fields : List String :=
  ["title", "time_minutes", "price", "link", "description"]

/-- The validated payload of a recipe update call: the optional nested name lists (None
when the key is absent) and the remaining validated_data items as key-value pairs. -/
structure UpdatePayload where
  tags : Option (List String)
  ingredients : Option (List String)
  fields : List (String × FieldVal)

/-- RecipeSerializer.update: pop the nested lists with an empty-list default (so the
following is-not-None guards are always taken), clear and re-reconcile the ingredient
associations, then the tag associations, assign the remaining validated_data items with
setattr, and save the instance. -/
def RecipeSerializer_update (authUser : Nat) (inst : RecipeRec) (p : UpdatePayload)
    (db : DB) : Except String (RecipeRec × DB) :=
  let tags := p.tags.getD []
  let ingredients := p.ingredients.getD []
  let inst1 := { inst with ingredients := ([] : List Nat) }
  match get_or_create_attrs authUser ingredients inst1.ingredients db.ingredientStore with
  | .error e => .error e
  | .ok (ingAttached, ingStore1, _) =>
    let inst2 := { inst1 with ingredients := ingAttached }
    let inst3 := { inst2 with tags := ([] : List Nat) }
    match get_or_create_attrs authUser tags inst3.tags db.tagStore with
    | .error e => .error e
    | .ok (tagAttached, tagStore1, _) =>
      let inst4 := { inst3 with tags := tagAttached }
      let inst5 := p.fields.foldl (fun r kv => set_attr r kv.1 kv.2) inst4
      .ok (inst5, { db with tagStore := tagStore1, ingredientStore := ingStore1 })

/-- The ordering property the creation-path claim asserts of a trace: the recipe is
persisted exactly once, and no tag or ingredient resolution happens after that single
persist (equivalently, the persist comes after all resolutions). -/
def persist_once_after_resolves (tr : List Event) : Prop :=
  tr.count Event.persistRecipe = 1 ∧
    ∀ pre post, tr = pre ++ Event.persistRecipe :: post → ∀ e ∈ post, e.isResolve = false

/-! ## Lemmas about de-duplication and ordering -/

lemma distinct_by_id_from_sublist :
    ∀ (l : List RecipeRec) (seen : List Nat), List.Sublist (distinct_by_id_from seen l) l := by
  intro l
  induction l with
  | nil => intro seen; simp [distinct_by_id_from]
  | cons r rs ih =>
    intro seen
    cases h : seen.contains r.id with
    | true =>
      simp only [distinct_by_id_from, h, if_true]
      exact (ih seen).trans (List.sublist_cons_self r rs)
    | false =>
      simp only [distinct_by_id_from, h, Bool.false_eq_true, if_false]
      exact (ih (r.id :: seen)).cons₂ r

lemma distinct_by_id_sublist (l : List RecipeRec) : List.Sublist (distinct_by_id l) l :=
  distinct_by_id_from_sublist l []

lemma sorted_distinct_by_id {l : List RecipeRec} (h : List.Sorted idDesc l) :
    List.Sorted idDesc (distinct_by_id l) :=
  List.Pairwise.sublist (distinct_by_id_sublist l) h

lemma contains_iff_mem {A : Type} [BEq A] [LawfulBEq A] {l : List A} {a : A} :
    l.contains a = true ↔ a ∈ l :=
  List.elem_iff

lemma distinct_by_id_from_nodup :
    ∀ (l : List RecipeRec) (seen : List Nat),
      ((distinct_by_id_from seen l).map (fun r => r.id)).Nodup ∧
        ∀ r ∈ distinct_by_id_from seen l, ¬ r.id ∈ seen := by
  intro l
  induction l with
  | nil => intro seen; simp [distinct_by_id_from]
  | cons r rs ih =>
    intro seen
    cases h : seen.contains r.id with
    | true =>
      have hm : r.id ∈ seen := contains_iff_mem.mp h
      simpa [distinct_by_id_from, hm] using ih seen
    | false =>
      have hmem : ¬ r.id ∈ seen := by
        intro hm
        rw [contains_iff_mem.mpr hm] at h
        cases h
      obtain ⟨ihnd, ihout⟩ := ih (r.id :: seen)
      simp only [distinct_by_id_from, h, Bool.false_eq_true, if_false]
      refine ⟨?_, ?_⟩
      · simp only [List.map_cons, List.nodup_cons]
        refine ⟨?_, ihnd⟩
        intro hc
        obtain ⟨x, hx, hxid⟩ := List.mem_map.mp hc
        exact (ihout x hx) (hxid ▸ List.mem_cons_self _ _)
      · intro x hx
        rcases List.mem_cons.mp hx with rfl | hx'
        · exact hmem
        · intro hxs
          exact (ihout x hx') (List.mem_cons_of_mem _ hxs)

lemma distinct_by_id_nodup (l : List RecipeRec) :
    ((distinct_by_id l).map (fun r => r.id)).Nodup :=
  (distinct_by_id_from_nodup l []).1

lemma distinct_by_id_from_eq_self :
    ∀ (l : List RecipeRec) (seen : List Nat),
      (l.map (fun r => r.id)).Nodup → (∀ r ∈ l, ¬ r.id ∈ seen) →
        distinct_by_id_from seen l = l := by
  intro l
  induction l with
  | nil => intro seen _ _; rfl
  | cons r rs ih =>
    intro seen hnd hout
    have hco : seen.contains r.id = false := by
      cases h : seen.contains r.id with
      | true => exact absurd (contains_iff_mem.mp h) (hout r (List.mem_cons_self _ _))
      | false => rfl
    simp only [distinct_by_id_from, hco, Bool.false_eq_true, if_false, List.cons.injEq,
      true_and]
    simp only [List.map_cons, List.nodup_cons] at hnd
    refine ih (r.id :: seen) hnd.2 ?_
    intro x hx hmem
    rcases List.mem_cons.mp hmem with hxr | hxs
    · exact hnd.1 (hxr ▸ List.mem_map_of_mem (fun r => r.id) hx)
    · exact hout x (List.mem_cons_of_mem _ hx) hxs

lemma distinct_by_id_eq_self {l : List RecipeRec} (h : (l.map (fun r => r.id)).Nodup) :
    distinct_by_id l = l :=
  distinct_by_id_from_eq_self l [] h (by simp)

lemma order_by_desc_id_sorted (rs : List RecipeRec) :
    List.Sorted idDesc (order_by_desc_id rs) :=
  List.sorted_insertionSort idDesc rs

lemma order_by_desc_id_perm (rs : List RecipeRec) : List.Perm (order_by_desc_id rs) rs :=
  List.perm_insertionSort idDesc rs

/-! ## Demonstration data used by witnesses -/

/-- Demo recipe R1: owner 1, tag 1 attached. -/
def demoR1 : RecipeRec := ⟨1, 1, "R1", 10, 5, "", "", [1], [4]⟩

/-- Demo recipe R2: owner 1, tag 1 attached. -/
def demoR2 : RecipeRec := ⟨2, 1, "R2", 10, 5, "", "", [1], []⟩

/-- Demo recipe R3: owner 1, tag 2 attached. -/
def demoR3 : RecipeRec := ⟨3, 1, "R3", 10, 5, "", "", [2], []⟩

/-- The demo recipe table. -/
def demoRecipes : List RecipeRec := [demoR1, demoR2, demoR3]

/-! ## Claims about the list endpoints -/

/-- C10: for every tag list call and every ingredient list call, the result contains
only records owned by the requesting principal (exactly its records, as a permutation of
the owner filter) and is ordered by descending name. -/
theorem attr_list_owned_desc_name (recs : List AttrRec) (u : Nat) :
    List.Perm (base_attr_get_queryset recs u) (recs.filter (fun t => t.user == u)) ∧
    List.Sorted nameDesc (base_attr_get_queryset recs u) ∧
    ∀ t ∈ base_attr_get_queryset recs u, t.user = u := by
  refine ⟨List.perm_insertionSort nameDesc _, List.sorted_insertionSort nameDesc _, ?_⟩
  intro t ht
  have hmem : t ∈ recs.filter (fun t => t.user == u) :=
    (List.perm_insertionSort nameDesc _).mem_iff.mp ht
  have := List.of_mem_filter hmem
  simpa using this

/-- C9: a present-but-empty filter parameter is treated exactly as an absent one (no
filtering, no parse error), whereas a parameter with an empty entry between commas, such
as 1-comma, reaches integer parsing and fails the call. -/
theorem empty_param_absent_empty_entry_fails (db : List RecipeRec) (u : Nat)
    (tp ip : Option String) :
    RecipeViewSet_get_queryset db u (some "") ip = RecipeViewSet_get_queryset db u none ip ∧
    RecipeViewSet_get_queryset db u tp (some "") = RecipeViewSet_get_queryset db u tp none ∧
    RecipeViewSet_get_queryset db u (some "1,") ip = none ∧
    RecipeViewSet_get_queryset db u tp (some "1,") = none := by
  refine ⟨rfl, ?_, ?_, ?_⟩
  · unfold RecipeViewSet_get_queryset
    cases happ : apply_filter_param RecipeRec.hasTagId tp
        (db.filter (fun r => r.user == u)) with
    | none => rfl
    | some b1 => rfl
  · rfl
  · unfold RecipeViewSet_get_queryset
    cases happ : apply_filter_param RecipeRec.hasTagId tp
        (db.filter (fun r => r.user == u)) with
    | none => rfl
    | some b1 => rfl

/-- A conversion failure on any entry fails the whole entry-list conversion. -/
lemma ints_of_entries_none {l : List (List Char)} (h : ∃ e ∈ l, pyIntChars? e = none) :
    ints_of_entries l = none := by
  induction l with
  | nil => simp at h
  | cons a t ih =>
    rcases h with ⟨e, he, hnone⟩
    rcases List.mem_cons.mp he with rfl | hmem
    · simp [ints_of_entries, hnone]
    · cases ha : pyIntChars? a <;> simp [ints_of_entries, ha, ih ⟨e, hmem, hnone⟩]

/-- C5: a nonempty filter parameter containing an entry that is not a valid integer makes
the parameter conversion fail, and the whole list call fails with that parsing error (the
list call reads the store and persists nothing). -/
theorem nonint_filter_entry_fails (s : String) (hne : s ≠ "")
    (hbad : ∃ e ∈ splitOnComma s.data, pyIntChars? e = none) :
    params_to_ints s = none ∧
    ∀ (db : List RecipeRec) (u : Nat) (tp ip : Option String),
      RecipeViewSet_get_queryset db u (some s) ip = none ∧
      RecipeViewSet_get_queryset db u tp (some s) = none := by
  have hp : params_to_ints s = none := ints_of_entries_none hbad
  refine ⟨hp, ?_⟩
  intro db u tp ip
  constructor
  · unfold RecipeViewSet_get_queryset apply_filter_param
    simp [hne, hp]
  · unfold RecipeViewSet_get_queryset
    cases happ : apply_filter_param RecipeRec.hasTagId tp
        (db.filter (fun r => r.user == u)) with
    | none => rfl
    | some b1 => simp [apply_filter_param, hne, hp]

/-- Witness for C5 at a concrete non-integer parameter. -/
theorem nonint_filter_entry_fails_witness :
    (("abc" : String) ≠ "" ∧ ∃ e ∈ splitOnComma ("abc" : String).data, pyIntChars? e = none) ∧
    (params_to_ints "abc" = none ∧
      RecipeViewSet_get_queryset demoRecipes 1 (some "abc") none = none) :=
  ⟨⟨by decide, by decide⟩,
    (nonint_filter_entry_fails "abc" (by decide) (by decide)).1,
    ((nonint_filter_entry_fails "abc" (by decide) (by decide)).2 demoRecipes 1 none none).1⟩

/-- C7: with no filter parameters, the list call returns exactly the principal's recipes
(a permutation of the owner filter), ordered by descending identifier. -/
theorem unfiltered_list_all_owned_desc (db : List RecipeRec) (u : Nat)
    (hids : (db.map (fun r => r.id)).Nodup) :
    ∃ rs, RecipeViewSet_get_queryset db u none none = some rs ∧
      List.Perm rs (db.filter (fun r => r.user == u)) ∧ List.Sorted idDesc rs := by
  have hsub : List.Sublist ((db.filter (fun r => r.user == u)).map (fun r => r.id))
      (db.map (fun r => r.id)) := (List.filter_sublist db).map _
  have hbase : ((db.filter (fun r => r.user == u)).map (fun r => r.id)).Nodup :=
    hids.sublist hsub
  have hperm := order_by_desc_id_perm (db.filter (fun r => r.user == u))
  have hsortnd :
      ((order_by_desc_id (db.filter (fun r => r.user == u))).map (fun r => r.id)).Nodup :=
    ((hperm.map (fun r => r.id)).nodup_iff).mpr hbase
  refine ⟨order_by_desc_id (db.filter (fun r => r.user == u)), ?_, hperm,
    order_by_desc_id_sorted _⟩
  show some (distinct_by_id (order_by_desc_id (db.filter (fun r => r.user == u)))) = _
  rw [distinct_by_id_eq_self hsortnd]

/-- Witness for C7 on the demo table. -/
theorem unfiltered_list_all_owned_desc_witness :
    (demoRecipes.map (fun r => r.id)).Nodup ∧
    ∃ rs, RecipeViewSet_get_queryset demoRecipes 1 none none = some rs ∧
      List.Perm rs (demoRecipes.filter (fun r => r.user == 1)) ∧ List.Sorted idDesc rs :=
  ⟨by decide, unfiltered_list_all_owned_desc demoRecipes 1 (by decide)⟩

/-! ## C1: the filtering loop refines the two-phase specification -/

lemma pick_fold_eq (g : Int → Option RecipeRec) :
    ∀ (ids : List Int) (acc : List Nat),
      ids.foldl
          (fun qs i =>
            match g i with
            | some recipe => qs ++ [recipe.id]
            | none => qs)
          acc =
        acc ++ (ids.filterMap g).map (fun r => r.id) := by
  intro ids
  induction ids with
  | nil => intro acc; simp
  | cons i t ih =>
    intro acc
    cases hg : g i with
    | none => simp [List.foldl_cons, hg, List.filterMap_cons, ih]
    | some r => simp [List.foldl_cons, hg, List.filterMap_cons, ih]

lemma contains_map_id (l : List RecipeRec) (n : Nat) :
    (l.map (fun r => r.id)).contains n = l.any (fun p => p.id == n) := by
  induction l with
  | nil => rfl
  | cons r t ih =>
    simp only [List.map_cons, List.contains_cons, List.any_cons, ih]
    rw [Bool.beq_comm]

lemma narrow_eq_spec (h : RecipeRec → Int → Bool) (b : List RecipeRec)
    (ids : List Int) : narrow_one_per_id h b ids = spec_narrow h b ids := by
  unfold narrow_one_per_id spec_narrow
  rw [pick_fold_eq (pick_for_id h b) ids []]
  simp only [List.nil_append]
  have hpred :
      (fun r : RecipeRec =>
          ((ids.filterMap (pick_for_id h b)).map (fun r => r.id)).contains r.id) =
        fun r : RecipeRec =>
          (ids.filterMap (pick_for_id h b)).any (fun p => p.id == r.id) :=
    funext (fun r => contains_map_id _ _)
  rw [hpred]

lemma apply_eq_spec (h : RecipeRec → Int → Bool) (p : Option String)
    (b : List RecipeRec) : apply_filter_param h p b = spec_apply_param h p b := by
  cases p with
  | none => rfl
  | some s =>
    unfold apply_filter_param spec_apply_param
    by_cases hs : s = ""
    · simp [hs]
    · simp only [hs, if_false]
      cases hp : params_to_ints s with
      | none => rfl
      | some ids => simp [narrow_eq_spec]

/-- C1: the recipe list filter is exactly the specification's two-phase at-most-one-per-ID
narrowing — per requested tag ID the lowest-identifier matching recipe of the owned
working set, picks unioned, the same narrowing then applied for ingredient IDs on the
already-narrowed set — and every returned list is de-duplicated (pairwise distinct
identifiers) and ordered by descending identifier. -/
theorem recipe_filter_one_per_id_refines (db : List RecipeRec) (u : Nat)
    (tp ip : Option String) :
    RecipeViewSet_get_queryset db u tp ip = spec_recipe_filter db u tp ip ∧
    ∀ rs, RecipeViewSet_get_queryset db u tp ip = some rs →
      List.Sorted idDesc rs ∧ (rs.map (fun r => r.id)).Nodup := by
  constructor
  · unfold RecipeViewSet_get_queryset spec_recipe_filter
    simp only [apply_eq_spec]
  · intro rs hrs
    unfold RecipeViewSet_get_queryset at hrs
    cases h1 : apply_filter_param RecipeRec.hasTagId tp
        (db.filter (fun r => r.user == u)) with
    | none =>
      rw [h1] at hrs
      exact Option.noConfusion hrs
    | some b1 =>
      simp only [h1] at hrs
      cases h2 : apply_filter_param RecipeRec.hasIngredientId ip b1 with
      | none =>
        simp only [h2] at hrs
        exact Option.noConfusion hrs
      | some b2 =>
        simp only [h2, Option.some.injEq] at hrs
        subst hrs
        exact ⟨sorted_distinct_by_id (order_by_desc_id_sorted b2),
          distinct_by_id_nodup _⟩

/-- Witness for C1 on the demo table, reproducing the specification's own scenario: with
recipes R1 and R2 carrying tag 1 and R3 carrying tag 2, filtering by tags=1 returns
exactly the lower-identifier one of R1 and R2. -/
theorem recipe_filter_one_per_id_refines_witness :
    (RecipeViewSet_get_queryset demoRecipes 1 (some "1") none =
      spec_recipe_filter demoRecipes 1 (some "1") none) ∧
    RecipeViewSet_get_queryset demoRecipes 1 (some "1") none = some [demoR1] ∧
    List.Sorted idDesc [demoR1] ∧ ([demoR1].map (fun r => r.id)).Nodup :=
  ⟨(recipe_filter_one_per_id_refines demoRecipes 1 (some "1") none).1, by decide,
    ((recipe_filter_one_per_id_refines demoRecipes 1 (some "1") none).2 [demoR1]
      (by decide)).1,
    ((recipe_filter_one_per_id_refines demoRecipes 1 (some "1") none).2 [demoR1]
      (by decide)).2⟩

/-! ## Setattr preservation lemmas (for the update path) -/

lemma set_attr_tags (r : RecipeRec) (k : String) (v : FieldVal) :
    (set_attr r k v).tags = r.tags := by
  unfold set_attr
  repeat' split
  all_goals rfl

lemma set_attr_ingredients (r : RecipeRec) (k : String) (v : FieldVal) :
    (set_attr r k v).ingredients = r.ingredients := by
  unfold set_attr
  repeat' split
  all_goals rfl

lemma set_attr_user_of_writable (r : RecipeRec) (k : String) (v : FieldVal)
    (hk : k ∈ writable_fields) : (set_attr r k v).user = r.user := by
  simp only [writable_fields, List.mem_cons, List.not_mem_nil, or_false] at hk
  rcases hk with rfl | rfl | rfl | rfl | rfl
  all_goals cases v <;> rfl

lemma foldl_set_attr_tags :
    ∀ (fs : List (String × FieldVal)) (r : RecipeRec),
      (fs.foldl (fun r kv => set_attr r kv.1 kv.2) r).tags = r.tags := by
  intro fs
  induction fs with
  | nil => intro r; rfl
  | cons kv t ih => intro r; rw [List.foldl_cons, ih, set_attr_tags]

lemma foldl_set_attr_ingredients :
    ∀ (fs : List (String × FieldVal)) (r : RecipeRec),
      (fs.foldl (fun r kv => set_attr r kv.1 kv.2) r).ingredients = r.ingredients := by
  intro fs
  induction fs with
  | nil => intro r; rfl
  | cons kv t ih => intro r; rw [List.foldl_cons, ih, set_attr_ingredients]

lemma foldl_set_attr_user :
    ∀ (fs : List (String × FieldVal)) (r : RecipeRec),
      (∀ kv ∈ fs, kv.1 ∈ writable_fields) →
      (fs.foldl (fun r kv => set_attr r kv.1 kv.2) r).user = r.user := by
  intro fs
  induction fs with
  | nil => intro r _; rfl
  | cons kv t ih =>
    intro r hw
    rw [List.foldl_cons, ih _ (fun x hx => hw x (List.mem_cons_of_mem _ hx)),
      set_attr_user_of_writable _ _ _ (hw kv (List.mem_cons_self _ _))]

/-! ## C2 and C8: the update path -/

/-- C2: on update, an empty nested list for a kind — and equally an absent key for that
kind, since the pop falls back to the empty list — leaves the recipe with zero attached
records of that kind, regardless of prior state: the association set is fully replaced by
exactly the named records of the request. -/
theorem update_empty_or_absent_clears (authUser : Nat) (inst : RecipeRec)
    (p : UpdatePayload) (db : DB) (r : RecipeRec) (db' : DB)
    (h : RecipeSerializer_update authUser inst p db = .ok (r, db')) :
    (p.tags.getD [] = [] → r.tags = []) ∧
    (p.ingredients.getD [] = [] → r.ingredients = []) := by
  simp only [RecipeSerializer_update] at h
  cases hI : get_or_create_attrs authUser (p.ingredients.getD []) ([] : List Nat)
      db.ingredientStore with
  | error e =>
    rw [hI] at h
    exact Except.noConfusion h
  | ok tripI =>
    obtain ⟨ingAttached, ingStore1, resI⟩ := tripI
    rw [hI] at h
    simp only [] at h
    cases hT : get_or_create_attrs authUser (p.tags.getD []) ([] : List Nat)
        db.tagStore with
    | error e =>
      rw [hT] at h
      exact Except.noConfusion h
    | ok tripT =>
      obtain ⟨tagAttached, tagStore1, resT⟩ := tripT
      rw [hT] at h
      simp only [Except.ok.injEq, Prod.mk.injEq] at h
      obtain ⟨rfl, rfl⟩ := h
      constructor
      · intro ht
        rw [ht] at hT
        simp only [get_or_create_attrs, Except.ok.injEq, Prod.mk.injEq] at hT
        obtain ⟨hatt, _, _⟩ := hT
        rw [foldl_set_attr_tags]
        exact hatt.symm
      · intro hi
        rw [hi] at hI
        simp only [get_or_create_attrs, Except.ok.injEq, Prod.mk.injEq] at hI
        obtain ⟨hatt, _, _⟩ := hI
        rw [foldl_set_attr_ingredients]
        exact hatt.symm

/-- Demo recipe instance for the update witnesses. -/
def updDemoInst : RecipeRec := ⟨1, 1, "t", 5, 3, "", "", [7], [9]⟩

/-- Demo empty database for the update witnesses. -/
def updDemoDB : DB := ⟨⟨[], 1⟩, ⟨[], 1⟩, 1⟩

/-- Witness for C2: tags supplied as the empty list, ingredients key absent; both
association sets end up empty. -/
theorem update_empty_or_absent_clears_witness :
    (RecipeSerializer_update 1 updDemoInst ⟨some [], none, []⟩ updDemoDB =
      .ok (⟨1, 1, "t", 5, 3, "", "", [], []⟩, updDemoDB)) ∧
    (((some [] : Option (List String)).getD [] = [] →
        (⟨1, 1, "t", 5, 3, "", "", [], []⟩ : RecipeRec).tags = []) ∧
      ((none : Option (List String)).getD [] = [] →
        (⟨1, 1, "t", 5, 3, "", "", [], []⟩ : RecipeRec).ingredients = [])) :=
  ⟨rfl,
    update_empty_or_absent_clears 1 updDemoInst ⟨some [], none, []⟩ updDemoDB
      ⟨1, 1, "t", 5, 3, "", "", [], []⟩ updDemoDB rfl⟩

/-- C8: the update path cannot change the recipe's owner: the reconciliation loops do not
touch the owner, and every remaining validated_data key is one of the serializer's
writable fields, none of which is the owner. -/
theorem update_preserves_owner (authUser : Nat) (inst : RecipeRec) (p : UpdatePayload)
    (db : DB) (r : RecipeRec) (db' : DB)
    (hw : ∀ kv ∈ p.fields, kv.1 ∈ writable_fields)
    (h : RecipeSerializer_update authUser inst p db = .ok (r, db')) :
    r.user = inst.user := by
  simp only [RecipeSerializer_update] at h
  cases hI : get_or_create_attrs authUser (p.ingredients.getD []) ([] : List Nat)
      db.ingredientStore with
  | error e =>
    rw [hI] at h
    exact Except.noConfusion h
  | ok tripI =>
    obtain ⟨ingAttached, ingStore1, resI⟩ := tripI
    rw [hI] at h
    simp only [] at h
    cases hT : get_or_create_attrs authUser (p.tags.getD []) ([] : List Nat)
        db.tagStore with
    | error e =>
      rw [hT] at h
      exact Except.noConfusion h
    | ok tripT =>
      obtain ⟨tagAttached, tagStore1, resT⟩ := tripT
      rw [hT] at h
      simp only [Except.ok.injEq, Prod.mk.injEq] at h
      obtain ⟨rfl, rfl⟩ := h
      rw [foldl_set_attr_user _ _ hw]

/-- Witness for C8: a title assignment through the writable fields leaves the owner
unchanged. -/
theorem update_preserves_owner_witness :
    (∀ kv ∈ ([("title", FieldVal.strVal "new")] : List (String × FieldVal)),
      kv.1 ∈ writable_fields) ∧
    (RecipeSerializer_update 1 updDemoInst ⟨some [], none,
        [("title", FieldVal.strVal "new")]⟩ updDemoDB =
      .ok (⟨1, 1, "new", 5, 3, "", "", [], []⟩, updDemoDB)) ∧
    (⟨1, 1, "new", 5, 3, "", "", [], []⟩ : RecipeRec).user = updDemoInst.user :=
  ⟨by decide, rfl,
    update_preserves_owner 1 updDemoInst
      ⟨some [], none, [("title", FieldVal.strVal "new")]⟩ updDemoDB
      ⟨1, 1, "new", 5, 3, "", "", [], []⟩ updDemoDB (by decide) rfl⟩

/-! ## C4: ordering of the single persist on the creation path

The claim as stated — the persist happens after all tag and ingredient resolutions — is
refuted: Recipe.objects.create runs before the reconciliation loops, so every resolution
happens after the single persist.  The amended statement proves the persist is unique and
comes first.
-/

lemma count_persist_map_resolveTag (l : List String) :
    (l.map Event.resolveTag).count Event.persistRecipe = 0 := by
  rw [List.count_eq_zero]
  intro hmem
  obtain ⟨n, _, hn⟩ := List.mem_map.mp hmem
  exact Event.noConfusion hn

lemma count_persist_map_resolveIngredient (l : List String) :
    (l.map Event.resolveIngredient).count Event.persistRecipe = 0 := by
  rw [List.count_eq_zero]
  intro hmem
  obtain ⟨n, _, hn⟩ := List.mem_map.mp hmem
  exact Event.noConfusion hn

/-- Counterexample to C4 as stated: creating a recipe with one tag specification yields
the trace persist-then-resolve, so the single persist does not happen after the
resolutions — a resolution follows it. -/
theorem create_persist_order_counterexample :
    (RecipeSerializer_create 1 ⟨"Pongal", 25, 8, "", "", some ["Vegan"], none⟩
        ⟨⟨[], 1⟩, ⟨[], 1⟩, 1⟩).map (fun x => x.2.2) =
      .ok [Event.persistRecipe, Event.resolveTag "Vegan"] ∧
    ¬ persist_once_after_resolves [Event.persistRecipe, Event.resolveTag "Vegan"] := by
  constructor
  · rfl
  · intro hc
    have := hc.2 [] [Event.resolveTag "Vegan"] rfl (Event.resolveTag "Vegan")
      (List.mem_singleton_self _)
    exact Bool.noConfusion this

/-- C4 amended: on the creation path the recipe is persisted exactly once, and this
single persist happens before any tag or ingredient resolution (the recipe row must exist
before associations are attached), not after them. -/
theorem create_persists_once_before_resolves (u : Nat) (p : CreatePayload) (db : DB)
    (r : RecipeRec) (db' : DB) (tr : List Event)
    (h : RecipeSerializer_create u p db = .ok (r, db', tr)) :
    tr.count Event.persistRecipe = 1 ∧ tr.head? = some Event.persistRecipe := by
  simp only [RecipeSerializer_create] at h
  cases hT : get_or_create_attrs u (p.tags.getD []) ([] : List Nat) db.tagStore with
  | error e =>
    rw [hT] at h
    exact Except.noConfusion h
  | ok tripT =>
    obtain ⟨tagsAttached, tagStore1, resolvedTags⟩ := tripT
    rw [hT] at h
    simp only [] at h
    cases hI : get_or_create_attrs u (p.ingredients.getD []) ([] : List Nat)
        db.ingredientStore with
    | error e =>
      rw [hI] at h
      exact Except.noConfusion h
    | ok tripI =>
      obtain ⟨ingsAttached, ingStore1, resolvedIngs⟩ := tripI
      rw [hI] at h
      simp only [Except.ok.injEq, Prod.mk.injEq] at h
      obtain ⟨_, _, rfl⟩ := h
      constructor
      · rw [List.count_cons_self, List.count_append, count_persist_map_resolveTag,
          count_persist_map_resolveIngredient]
      · rfl

/-- Witness for the amended C4 at a concrete creation call. -/
theorem create_persists_once_before_resolves_witness :
    (RecipeSerializer_create 1 ⟨"Pongal", 25, 8, "", "", some ["Vegan"], none⟩
        ⟨⟨[], 1⟩, ⟨[], 1⟩, 1⟩ =
      .ok (⟨1, 1, "Pongal", 25, 8, "", "", [1], []⟩, ⟨⟨[⟨1, 1, "Vegan"⟩], 2⟩, ⟨[], 1⟩, 2⟩,
        [Event.persistRecipe, Event.resolveTag "Vegan"])) ∧
    ([Event.persistRecipe, Event.resolveTag "Vegan"].count Event.persistRecipe = 1 ∧
      [Event.persistRecipe, Event.resolveTag "Vegan"].head? = some Event.persistRecipe) :=
  ⟨rfl,
    create_persists_once_before_resolves 1 ⟨"Pongal", 25, 8, "", "", some ["Vegan"], none⟩
      ⟨⟨[], 1⟩, ⟨[], 1⟩, 1⟩ ⟨1, 1, "Pongal", 25, 8, "", "", [1], []⟩
      ⟨⟨[⟨1, 1, "Vegan"⟩], 2⟩, ⟨[], 1⟩, 2⟩
      [Event.persistRecipe, Event.resolveTag "Vegan"] rfl⟩

/-! ## Helper lemmas about the store operations -/

lemma countKey_filter_nil {s : Store} {u : Nat} {n : String}
    (h : s.countKey u n = 0) :
    s.recs.filter (fun t => t.user == u && t.name == n) = [] :=
  List.length_eq_zero.mp h

lemma get_or_create_zero {s : Store} {u : Nat} {n : String} (h : s.countKey u n = 0) :
    s.get_or_create u n =
      .ok (⟨s.nextId, u, n⟩, ⟨s.recs ++ [⟨s.nextId, u, n⟩], s.nextId + 1⟩) := by
  unfold Store.get_or_create
  rw [countKey_filter_nil h]

lemma mem_key_filter {s : Store} {u : Nat} {n : String} {t : AttrRec} :
    t ∈ s.recs.filter (fun t => t.user == u && t.name == n) ↔
      t ∈ s.recs ∧ t.user = u ∧ t.name = n := by
  simp [List.mem_filter, Bool.and_eq_true, beq_iff_eq, and_assoc]

lemma get_or_create_one {s : Store} {u : Nat} {n : String} (h : s.countKey u n = 1) :
    ∃ t, s.recs.filter (fun t => t.user == u && t.name == n) = [t] ∧
      s.get_or_create u n = .ok (t, s) ∧ t ∈ s.recs ∧ t.user = u ∧ t.name = n := by
  obtain ⟨t, ht⟩ := List.length_eq_one.mp h
  have hmem : t ∈ s.recs.filter (fun t => t.user == u && t.name == n) := by
    rw [ht]; exact List.mem_singleton_self t
  obtain ⟨h1, h2, h3⟩ := mem_key_filter.mp hmem
  refine ⟨t, ht, ?_, h1, h2, h3⟩
  unfold Store.get_or_create
  rw [ht]

lemma countKey_snoc (s : Store) (t : AttrRec) (k : Nat) (v : Nat) (m : String) :
    Store.countKey ⟨s.recs ++ [t], k⟩ v m =
      s.countKey v m + (if t.user = v ∧ t.name = m then 1 else 0) := by
  simp only [Store.countKey, List.filter_append, List.length_append]
  by_cases h : t.user = v ∧ t.name = m
  · simp [List.filter_cons, h.1, h.2]
  · have hb : (t.user == v && t.name == m) = false := by
      cases hu : (t.user == v) with
      | false => simp [hu]
      | true =>
        cases hn : (t.name == m) with
        | false => simp [hn]
        | true => exact absurd ⟨beq_iff_eq.mp hu, beq_iff_eq.mp hn⟩ h
    simp [List.filter_cons, hb, h]

lemma contains_false_of_lt {attached : List Nat} {j : Nat}
    (h : ∀ tid ∈ attached, tid < j) : attached.contains j = false := by
  cases hb : attached.contains j with
  | false => rfl
  | true => exact absurd rfl (Nat.ne_of_lt (h j (contains_iff_mem.mp hb)))

lemma id_unique {s : Store} (hWF : s.WF) {a b : AttrRec} (ha : a ∈ s.recs)
    (hb : b ∈ s.recs) (hid : a.id = b.id) : a = b :=
  List.inj_on_of_nodup_map hWF.1 ha hb hid

lemma attached_count_snoc_store (s : Store) (t : AttrRec) (k : Nat)
    (attached : List Nat) (u : Nat) (n : String)
    (hlt : ∀ tid ∈ attached, tid < s.nextId) (hge : s.nextId ≤ t.id) :
    attached_count ⟨s.recs ++ [t], k⟩ attached u n = attached_count s attached u n := by
  unfold attached_count
  apply congrArg List.length
  apply List.filter_congr
  intro tid hmem
  have htid : tid < s.nextId := hlt tid hmem
  have hne : (t.id == tid) = false := by
    cases hb : (t.id == tid) with
    | false => rfl
    | true =>
      have := beq_iff_eq.mp hb
      omega
  simp [List.any_append, hne]

lemma attached_count_snoc_attached (s : Store) (attached : List Nat) (j : Nat)
    (u : Nat) (n : String) :
    attached_count s (attached ++ [j]) u n =
      attached_count s attached u n +
        (if s.recs.any (fun t => t.id == j && t.user == u && t.name == n) then 1 else 0) := by
  unfold attached_count
  rw [List.filter_append, List.length_append]
  by_cases h : s.recs.any (fun t => t.id == j && t.user == u && t.name == n)
  · simp [List.filter_cons, h]
  · simp [List.filter_cons, h]

lemma attached_pred_false_of_countKey_zero {s : Store} {u : Nat} {name : String}
    (h0 : s.countKey u name = 0) (tid : Nat) :
    s.recs.any (fun t => t.id == tid && t.user == u && t.name == name) = false := by
  cases hb : s.recs.any (fun t => t.id == tid && t.user == u && t.name == name) with
  | false => rfl
  | true =>
    obtain ⟨t, hmem, hpred⟩ := List.any_eq_true.mp hb
    simp only [Bool.and_eq_true, beq_iff_eq] at hpred
    have ht : t ∈ s.recs.filter (fun t => t.user == u && t.name == name) :=
      mem_key_filter.mpr ⟨hmem, hpred.1.2, hpred.2⟩
    rw [countKey_filter_nil h0] at ht
    cases ht

lemma attached_count_zero_of_countKey_zero {s : Store} (attached : List Nat)
    {u : Nat} {name : String} (h0 : s.countKey u name = 0) :
    attached_count s attached u name = 0 := by
  unfold attached_count
  rw [List.length_eq_zero, List.filter_eq_nil_iff]
  intro tid _
  simp [attached_pred_false_of_countKey_zero h0 tid]

lemma any_pred_name_iff {s : Store} {u : Nat} {name : String} {t : AttrRec}
    (hft : s.recs.filter (fun x => x.user == u && x.name == name) = [t]) (tid : Nat) :
    (s.recs.any (fun x => x.id == tid && x.user == u && x.name == name) = true) ↔
      tid = t.id := by
  have htmem : t ∈ s.recs ∧ t.user = u ∧ t.name = name :=
    mem_key_filter.mp (hft ▸ List.mem_singleton_self t)
  constructor
  · intro hb
    obtain ⟨x, hxmem, hpred⟩ := List.any_eq_true.mp hb
    simp only [Bool.and_eq_true, beq_iff_eq] at hpred
    have hx : x ∈ s.recs.filter (fun x => x.user == u && x.name == name) :=
      mem_key_filter.mpr ⟨hxmem, hpred.1.2, hpred.2⟩
    rw [hft, List.mem_singleton] at hx
    rw [← hpred.1.1, hx]
  · intro htid
    refine List.any_eq_true.mpr ⟨t, htmem.1, ?_⟩
    simp [htid, htmem.2.1, htmem.2.2]

lemma any_pred_tid_iff {s : Store} (hWF : s.WF) {u : Nat} {name : String} {t : AttrRec}
    (htmem : t ∈ s.recs) (htu : t.user = u) (htn : t.name = name) (m : String) :
    (s.recs.any (fun x => x.id == t.id && x.user == u && x.name == m) = true) ↔
      m = name := by
  constructor
  · intro hb
    obtain ⟨x, hxmem, hpred⟩ := List.any_eq_true.mp hb
    simp only [Bool.and_eq_true, beq_iff_eq] at hpred
    have hxt : x = t := id_unique hWF hxmem htmem hpred.1.1
    rw [← hpred.2, hxt, htn]
  · intro hm
    refine List.any_eq_true.mpr ⟨t, htmem, ?_⟩
    simp [htu, htn, hm]

/-- One creation step of the reconciler: no record with the requested natural key exists
for the principal, so a fresh one is created, appended and attached. -/
lemma reconciler_step_zero {u : Nat} {name : String} {s : Store} {attached : List Nat}
    (hWF : s.WF) (hattlt : ∀ tid ∈ attached, tid < s.nextId)
    (h0 : s.countKey u name = 0) :
    s.get_or_create u name =
      .ok (⟨s.nextId, u, name⟩, ⟨s.recs ++ [⟨s.nextId, u, name⟩], s.nextId + 1⟩) ∧
    m2m_add attached s.nextId = attached ++ [s.nextId] ∧
    Store.WF ⟨s.recs ++ [⟨s.nextId, u, name⟩], s.nextId + 1⟩ ∧
    (∀ v m, Store.countKey ⟨s.recs ++ [⟨s.nextId, u, name⟩], s.nextId + 1⟩ v m =
      s.countKey v m + if u = v ∧ name = m then 1 else 0) ∧
    (∀ tid ∈ attached ++ [s.nextId], tid < s.nextId + 1) ∧
    (∀ m,
      attached_count ⟨s.recs ++ [⟨s.nextId, u, name⟩], s.nextId + 1⟩
          (attached ++ [s.nextId]) u m =
        if m = name then 1 else attached_count s attached u m) := by
  have hnm : s.nextId ∉ attached := fun hm => Nat.lt_irrefl _ (hattlt _ hm)
  refine ⟨get_or_create_zero h0, ?_, ?_, ?_, ?_, ?_⟩
  · simp [m2m_add, hnm]
  · constructor
    · simp only [List.map_append, List.map_cons, List.map_nil]
      refine List.Nodup.append hWF.1 (List.nodup_singleton _) ?_
      intro a ha hb
      rw [List.mem_singleton] at hb
      obtain ⟨t, htmem, htid⟩ := List.mem_map.mp ha
      have := hWF.2 t htmem
      omega
    · intro t ht
      show t.id < s.nextId + 1
      rcases List.mem_append.mp ht with hmem | hmem
      · have := hWF.2 t hmem
        omega
      · rw [List.mem_singleton] at hmem
        rw [hmem]
        exact Nat.lt_succ_self s.nextId
  · intro v m
    exact countKey_snoc s ⟨s.nextId, u, name⟩ (s.nextId + 1) v m
  · intro tid hmem
    rcases List.mem_append.mp hmem with h | h
    · have := hattlt tid h
      omega
    · rw [List.mem_singleton] at h
      omega
  · intro m
    rw [attached_count_snoc_attached, attached_count_snoc_store s ⟨s.nextId, u, name⟩
      (s.nextId + 1) attached u m hattlt (Nat.le_refl _)]
    have hany : (s.recs ++ [(⟨s.nextId, u, name⟩ : AttrRec)]).any
        (fun t => t.id == s.nextId && t.user == u && t.name == m) = (name == m) := by
      rw [List.any_append]
      have hL : s.recs.any (fun t => t.id == s.nextId && t.user == u && t.name == m) =
          false := by
        cases hb : s.recs.any (fun t => t.id == s.nextId && t.user == u && t.name == m)
          with
        | false => rfl
        | true =>
          obtain ⟨x, hxmem, hpred⟩ := List.any_eq_true.mp hb
          simp only [Bool.and_eq_true, beq_iff_eq] at hpred
          have := hWF.2 x hxmem
          omega
      simp [hL]
    rw [hany]
    by_cases hm : m = name
    · rw [hm]
      simp [attached_count_zero_of_countKey_zero attached h0]
    · have : (name == m) = false := by
        cases hb : (name == m) with
        | false => rfl
        | true => exact absurd (beq_iff_eq.mp hb).symm hm
      simp [this, hm]

/-- One reuse step of the reconciler: exactly one record with the requested natural key
exists for the principal; it is returned unchanged and attached idempotently. -/
lemma reconciler_step_one {u : Nat} {name : String} {s : Store} {attached : List Nat}
    (hWF : s.WF) (hattlt : ∀ tid ∈ attached, tid < s.nextId)
    (hattle : ∀ n, attached_count s attached u n ≤ 1)
    (h1 : s.countKey u name = 1) :
    ∃ t, s.get_or_create u name = .ok (t, s) ∧ t ∈ s.recs ∧ t.user = u ∧ t.name = name ∧
      (∀ tid ∈ m2m_add attached t.id, tid < s.nextId) ∧
      (∀ m, attached_count s (m2m_add attached t.id) u m =
        if m = name then 1 else attached_count s attached u m) := by
  obtain ⟨t, hft, hgoc, htmem, htu, htn⟩ := get_or_create_one h1
  have htlt : t.id < s.nextId := hWF.2 t htmem
  refine ⟨t, hgoc, htmem, htu, htn, ?_, ?_⟩
  · intro tid hmem
    unfold m2m_add at hmem
    by_cases hc : attached.contains t.id
    · rw [if_pos hc] at hmem
      exact hattlt tid hmem
    · rw [if_neg hc] at hmem
      rcases List.mem_append.mp hmem with h | h
      · exact hattlt tid h
      · rw [List.mem_singleton] at h
        omega
  · intro m
    by_cases hc : attached.contains t.id = true
    · have hmematt : t.id ∈ attached := contains_iff_mem.mp hc
      have heq : m2m_add attached t.id = attached := by simp [m2m_add, hmematt]
      rw [heq]
      by_cases hm : m = name
      · rw [if_pos hm]
        have hmemf : t.id ∈ attached.filter
            (fun tid => s.recs.any (fun x => x.id == tid && x.user == u && x.name == m))
              := by
          refine List.mem_filter.mpr ⟨hmematt, ?_⟩
          rw [hm]
          exact (any_pred_name_iff hft t.id).mpr rfl
        have hpos : 0 < attached_count s attached u m :=
          List.length_pos.mpr (List.ne_nil_of_mem hmemf)
        have hle := hattle m
        omega
      · rw [if_neg hm]
    · have hnmem : t.id ∉ attached := fun hm => hc (contains_iff_mem.mpr hm)
      have heq : m2m_add attached t.id = attached ++ [t.id] := by simp [m2m_add, hnmem]
      rw [heq, attached_count_snoc_attached]
      by_cases hm : m = name
      · have hzero : attached_count s attached u m = 0 := by
          unfold attached_count
          rw [List.length_eq_zero, List.filter_eq_nil_iff]
          intro tid htid hpred
          rw [hm] at hpred
          have htt := (any_pred_name_iff hft tid).mp hpred
          rw [htt] at htid
          exact hnmem htid
        have hany : s.recs.any (fun x => x.id == t.id && x.user == u && x.name == m) =
            true := (any_pred_tid_iff hWF htmem htu htn m).mpr hm
        rw [hzero, hany, if_pos rfl, if_pos hm]
      · rw [if_neg hm]
        have hany : s.recs.any (fun x => x.id == t.id && x.user == u && x.name == m) =
            false := by
          cases hb : s.recs.any (fun x => x.id == t.id && x.user == u && x.name == m)
            with
          | false => rfl
          | true => exact absurd ((any_pred_tid_iff hWF htmem htu htn m).mp hb) hm
        simp [hany]

/-- Everything the reconciliation loop guarantees, relating the store and association
list before and after a successful run. -/
structure ReconcilerOutcome (u : Nat) (specs : List String) (attached : List Nat)
    (s : Store) (att : List Nat) (s' : Store) : Prop where
  extension : ∃ extras, s'.recs = s.recs ++ extras ∧
      ∀ t ∈ extras, t.user = u ∧ s.countKey u t.name = 0 ∧ t.name ∈ specs
  countFormula : ∀ n, s'.countKey u n = if n ∈ specs then 1 else s.countKey u n
  otherCounts : ∀ v n, v ≠ u → s'.countKey v n = s.countKey v n
  attachedFormula : ∀ n, attached_count s' att u n =
      if n ∈ specs then 1 else attached_count s attached u n
  wf : s'.WF
  countLe : ∀ n, s'.countKey u n ≤ 1
  nextMono : s.nextId ≤ s'.nextId
  attBound : ∀ tid ∈ att, tid < s'.nextId
  attLe : ∀ n, attached_count s' att u n ≤ 1

/-- Master lemma about the reconciliation loop: under the store invariants, the loop
succeeds, resolves exactly the requested names, creates records only under the requesting
principal and only for names it did not already own, and leaves each requested name with
exactly one owned record, attached exactly once. -/
lemma reconciler_master (u : Nat) :
    ∀ (specs : List String) (attached : List Nat) (s : Store),
      s.WF → (∀ n, s.countKey u n ≤ 1) → (∀ tid ∈ attached, tid < s.nextId) →
      (∀ n, attached_count s attached u n ≤ 1) →
      ∃ att s', get_or_create_attrs u specs attached s = .ok (att, s', specs) ∧
        ReconcilerOutcome u specs attached s att s' := by
  intro specs
  induction specs with
  | nil =>
    intro attached s hWF hle hattlt hattle
    refine ⟨attached, s, rfl,
      ⟨⟨[], by simp, by simp⟩, ?_, ?_, ?_, hWF, hle, Nat.le_refl _, hattlt, hattle⟩⟩
    · intro n; simp
    · intro v n _; rfl
    · intro n; simp
  | cons name rest ih =>
    intro attached s hWF hle hattlt hattle
    rcases Nat.le_one_iff_eq_zero_or_eq_one.mp (hle name) with h0 | h1
    · obtain ⟨hgoc, hm2m, hWF1, hcounts1, hattlt1, hattform1⟩ :=
        reconciler_step_zero hWF hattlt h0
      have hle1 : ∀ n,
          Store.countKey ⟨s.recs ++ [⟨s.nextId, u, name⟩], s.nextId + 1⟩ u n ≤ 1 := by
        intro n
        rw [hcounts1 u n]
        by_cases hn : name = n
        · rw [← hn, h0]
          simp
        · rw [if_neg (fun hcon => hn hcon.2)]
          simpa using hle n
      have hattle1 : ∀ n,
          attached_count ⟨s.recs ++ [⟨s.nextId, u, name⟩], s.nextId + 1⟩
            (attached ++ [s.nextId]) u n ≤ 1 := by
        intro n
        rw [hattform1 n]
        by_cases hn : n = name
        · simp [hn]
        · rw [if_neg hn]
          exact hattle n
      obtain ⟨att, s', hrec, out⟩ := ih (attached ++ [s.nextId])
        ⟨s.recs ++ [⟨s.nextId, u, name⟩], s.nextId + 1⟩ hWF1 hle1 hattlt1 hattle1
      refine ⟨att, s', ?_, ?_⟩
      · simp only [get_or_create_attrs, hgoc, hm2m, hrec]
      · obtain ⟨⟨extras1, hrecs1, hextras1⟩, hcf, hoc, haf, hwf2, hcle, hmono, habnd,
          hale⟩ := out
        have hmono1 : s.nextId + 1 ≤ s'.nextId := hmono
        refine ⟨⟨⟨s.nextId, u, name⟩ :: extras1, ?_, ?_⟩, ?_, ?_, ?_, hwf2, hcle,
          by omega, habnd, hale⟩
        · rw [hrecs1]
          simp
        · intro t ht
          rcases List.mem_cons.mp ht with rfl | hmem
          · exact ⟨rfl, h0, List.mem_cons_self _ _⟩
          · obtain ⟨htu, htc, htr⟩ := hextras1 t hmem
            have hc1 := hcounts1 u t.name
            rw [htc] at hc1
            refine ⟨htu, by omega, List.mem_cons_of_mem _ htr⟩
        · intro n
          rw [hcf n, hcounts1 u n]
          by_cases hn : n = name
          · by_cases hr : n ∈ rest
            · rw [if_pos hr, if_pos (List.mem_cons.mpr (Or.inr hr))]
            · rw [if_neg hr, if_pos (List.mem_cons.mpr (Or.inl hn)),
                if_pos ⟨rfl, hn.symm⟩, hn, h0]
          · have hcond : ¬(u = u ∧ name = n) := fun hcon => hn hcon.2.symm
            rw [if_neg hcond]
            by_cases hr : n ∈ rest
            · rw [if_pos hr, if_pos (List.mem_cons.mpr (Or.inr hr))]
            · rw [if_neg hr, if_neg (fun hm =>
                (List.mem_cons.mp hm).elim hn hr)]
              simp
        · intro v n hv
          rw [hoc v n hv, hcounts1 v n, if_neg (fun hcon => hv hcon.1.symm)]
          simp
        · intro n
          rw [haf n, hattform1 n]
          by_cases hn : n = name
          · by_cases hr : n ∈ rest
            · rw [if_pos hr, if_pos (List.mem_cons.mpr (Or.inr hr))]
            · rw [if_neg hr, if_pos hn, if_pos (List.mem_cons.mpr (Or.inl hn))]
          · by_cases hr : n ∈ rest
            · rw [if_pos hr, if_pos (List.mem_cons.mpr (Or.inr hr))]
            · rw [if_neg hr, if_neg hn, if_neg (fun hm =>
                (List.mem_cons.mp hm).elim hn hr)]
    · obtain ⟨t, hgoc, htmem, htu, htn, hattlt1, hattform1⟩ :=
        reconciler_step_one hWF hattlt hattle h1
      have hattle1 : ∀ n, attached_count s (m2m_add attached t.id) u n ≤ 1 := by
        intro n
        rw [hattform1 n]
        by_cases hn : n = name
        · simp [hn]
        · rw [if_neg hn]
          exact hattle n
      obtain ⟨att, s', hrec, out⟩ := ih (m2m_add attached t.id) s hWF hle hattlt1 hattle1
      refine ⟨att, s', ?_, ?_⟩
      · simp only [get_or_create_attrs, hgoc, hrec]
      · obtain ⟨⟨extras1, hrecs1, hextras1⟩, hcf, hoc, haf, hwf2, hcle, hmono, habnd,
          hale⟩ := out
        refine ⟨⟨extras1, hrecs1, ?_⟩, ?_, hoc, ?_, hwf2, hcle, hmono, habnd, hale⟩
        · intro x hx
          obtain ⟨hxu, hxc, hxr⟩ := hextras1 x hx
          exact ⟨hxu, hxc, List.mem_cons_of_mem _ hxr⟩
        · intro n
          rw [hcf n]
          by_cases hn : n = name
          · by_cases hr : n ∈ rest
            · rw [if_pos hr, if_pos (List.mem_cons.mpr (Or.inr hr))]
            · rw [if_neg hr, if_pos (List.mem_cons.mpr (Or.inl hn)), hn, h1]
          · by_cases hr : n ∈ rest
            · rw [if_pos hr, if_pos (List.mem_cons.mpr (Or.inr hr))]
            · rw [if_neg hr, if_neg (fun hm =>
                (List.mem_cons.mp hm).elim hn hr)]
        · intro n
          rw [haf n, hattform1 n]
          by_cases hn : n = name
          · by_cases hr : n ∈ rest
            · rw [if_pos hr, if_pos (List.mem_cons.mpr (Or.inr hr))]
            · rw [if_neg hr, if_pos hn, if_pos (List.mem_cons.mpr (Or.inl hn))]
          · by_cases hr : n ∈ rest
            · rw [if_pos hr, if_pos (List.mem_cons.mpr (Or.inr hr))]
            · rw [if_neg hr, if_neg hn, if_neg (fun hm =>
                (List.mem_cons.mp hm).elim hn hr)]

lemma length_filter_le_one_of_pairwise_ne {l : List AttrRec}
    (h : l.Pairwise (fun a b => a.name ≠ b.name)) (n : String) :
    (l.filter (fun t => t.name == n)).length ≤ 1 := by
  induction l with
  | nil => simp
  | cons a t ih =>
    rw [List.pairwise_cons] at h
    rw [List.filter_cons]
    by_cases ha : a.name = n
    · have hnil : t.filter (fun t => t.name == n) = [] := by
        rw [List.filter_eq_nil_iff]
        intro b hb hpred
        exact (h.1 b hb) (by rw [ha, beq_iff_eq.mp hpred])
      simp [ha, hnil]
    · have hb2 : ¬((a.name == n) = true) := fun hb => ha (beq_iff_eq.mp hb)
      rw [if_neg hb2]
      exact ih h.2

lemma countKey_le_one_of_natKeyUnique {s : Store} {u : Nat}
    (h : s.natKeyUniqueFor u) : ∀ n, s.countKey u n ≤ 1 := by
  intro n
  unfold Store.countKey
  have hsplit : s.recs.filter (fun t => t.user == u && t.name == n) =
      (s.recs.filter (fun t => t.user == u)).filter (fun t => t.name == n) := by
    rw [List.filter_filter]
    exact List.filter_congr (fun x _ => by rw [Bool.and_comm])
  rw [hsplit]
  exact length_filter_le_one_of_pairwise_ne h n

instance (s : Store) : Decidable s.WF := by
  unfold Store.WF
  infer_instance

instance (s : Store) (u : Nat) : Decidable (s.natKeyUniqueFor u) := by
  unfold Store.natKeyUniqueFor
  infer_instance

/-- C3: for every name specification handled by the reconciler under the requesting
principal: if the principal already owns a record with that name it is reused and no new
record with that natural key appears; otherwise a record owned by the requesting
principal is created; every created record is owned by the requester and no other
principal's records or counts are touched — even when another principal owns the same
name. -/
theorem reconciler_scopes_to_principal (u : Nat) (specs : List String)
    (attached : List Nat) (s : Store) (hWF : s.WF) (hkey : s.natKeyUniqueFor u)
    (hattlt : ∀ tid ∈ attached, tid < s.nextId)
    (hattle : ∀ n, attached_count s attached u n ≤ 1) :
    ∃ att s', get_or_create_attrs u specs attached s = .ok (att, s', specs) ∧
      (∃ extras, s'.recs = s.recs ++ extras ∧
        ∀ t ∈ extras, t.user = u ∧ s.countKey u t.name = 0 ∧ t.name ∈ specs) ∧
      (∀ n, s.countKey u n = 1 → s'.countKey u n = 1) ∧
      (∀ n ∈ specs, s'.countKey u n = 1) ∧
      (∀ v n, v ≠ u → s'.countKey v n = s.countKey v n) := by
  obtain ⟨att, s', hrec, out⟩ := reconciler_master u specs attached s hWF
    (countKey_le_one_of_natKeyUnique hkey) hattlt hattle
  refine ⟨att, s', hrec, out.extension, ?_, ?_, out.otherCounts⟩
  · intro n h1
    rw [out.countFormula n]
    by_cases hn : n ∈ specs
    · rw [if_pos hn]
    · rw [if_neg hn, h1]
  · intro n hn
    rw [out.countFormula n, if_pos hn]

/-- Store for the C3 witness: principal 1 owns a tag Indian, principal 2 owns a tag
Italian. -/
def c3store : Store := ⟨[⟨1, 1, "Indian"⟩, ⟨2, 2, "Italian"⟩], 3⟩

/-- Witness for C3: requesting Italian (owned only by principal 2) and Indian (owned by
the requester) as principal 1. -/
theorem reconciler_scopes_to_principal_witness :
    (c3store.WF ∧ c3store.natKeyUniqueFor 1 ∧
      (∀ tid ∈ ([] : List Nat), tid < c3store.nextId) ∧
      (∀ n, attached_count c3store [] 1 n ≤ 1)) ∧
    (∃ att s',
      get_or_create_attrs 1 ["Italian", "Indian"] [] c3store =
        .ok (att, s', ["Italian", "Indian"]) ∧
      (∃ extras, s'.recs = c3store.recs ++ extras ∧
        ∀ t ∈ extras, t.user = 1 ∧ c3store.countKey 1 t.name = 0 ∧
          t.name ∈ ["Italian", "Indian"]) ∧
      (∀ n, c3store.countKey 1 n = 1 → s'.countKey 1 n = 1) ∧
      (∀ n ∈ ["Italian", "Indian"], s'.countKey 1 n = 1) ∧
      (∀ v n, v ≠ 1 → s'.countKey v n = c3store.countKey v n)) :=
  ⟨⟨by decide, by decide, by decide, fun n => by simp [attached_count, c3store]⟩,
    reconciler_scopes_to_principal 1 ["Italian", "Indian"] [] c3store (by decide)
      (by decide) (by decide) (fun n => by simp [attached_count, c3store])⟩

/-- C6: a recipe create call whose payload repeats the same tag name does not fail, and
the resulting recipe carries exactly one attached Tag record with that name: the
duplicate specifications resolve to the same record and re-attaching is a no-op. -/
theorem create_duplicate_tag_name_attached_once (u : Nat) (p : CreatePayload) (db : DB)
    (name : String) (specs : List String)
    (hWFt : db.tagStore.WF) (hkeyt : db.tagStore.natKeyUniqueFor u)
    (hWFi : db.ingredientStore.WF) (hkeyi : db.ingredientStore.natKeyUniqueFor u)
    (hspecs : p.tags = some specs) (hdup : 2 ≤ specs.count name) :
    ∃ r db' tr, RecipeSerializer_create u p db = .ok (r, db', tr) ∧
      attached_count db'.tagStore r.tags u name = 1 := by
  obtain ⟨attT, sT, hrecT, outT⟩ := reconciler_master u specs [] db.tagStore hWFt
    (countKey_le_one_of_natKeyUnique hkeyt) (by simp)
    (fun n => by simp [attached_count])
  obtain ⟨attI, sI, hrecI, outI⟩ := reconciler_master u (p.ingredients.getD []) []
    db.ingredientStore hWFi (countKey_le_one_of_natKeyUnique hkeyi) (by simp)
    (fun n => by simp [attached_count])
  have hmem : name ∈ specs := by
    have : 0 < specs.count name := by omega
    exact List.count_pos_iff.mp this
  refine ⟨⟨db.nextRecipeId, u, p.title, p.time_minutes, p.price, p.link, p.description,
      attT, attI⟩, ⟨sT, sI, db.nextRecipeId + 1⟩,
    Event.persistRecipe :: (specs.map Event.resolveTag ++
      (p.ingredients.getD []).map Event.resolveIngredient), ?_, ?_⟩
  · simp only [RecipeSerializer_create, hspecs, Option.getD_some, hrecT, hrecI]
  · show attached_count sT attT u name = 1
    rw [outT.attachedFormula name, if_pos hmem]

/-- Witness for C6: creating with the tag name Vegan twice on an empty database attaches
exactly one Vegan record. -/
theorem create_duplicate_tag_name_attached_once_witness :
    ((⟨⟨[], 1⟩, ⟨[], 1⟩, 1⟩ : DB).tagStore.WF ∧
      (⟨⟨[], 1⟩, ⟨[], 1⟩, 1⟩ : DB).tagStore.natKeyUniqueFor 1 ∧
      (⟨⟨[], 1⟩, ⟨[], 1⟩, 1⟩ : DB).ingredientStore.WF ∧
      (⟨⟨[], 1⟩, ⟨[], 1⟩, 1⟩ : DB).ingredientStore.natKeyUniqueFor 1 ∧
      (⟨"Pongal", 25, 8, "", "", some ["Vegan", "Vegan"], none⟩ : CreatePayload).tags =
        some ["Vegan", "Vegan"] ∧
      2 ≤ (["Vegan", "Vegan"] : List String).count "Vegan") ∧
    (∃ r db' tr,
      RecipeSerializer_create 1 ⟨"Pongal", 25, 8, "", "", some ["Vegan", "Vegan"], none⟩
          ⟨⟨[], 1⟩, ⟨[], 1⟩, 1⟩ = .ok (r, db', tr) ∧
      attached_count db'.tagStore r.tags 1 "Vegan" = 1) :=
  ⟨⟨by decide, by decide, by decide, by decide, rfl, by decide⟩,
    create_duplicate_tag_name_attached_once 1
      ⟨"Pongal", 25, 8, "", "", some ["Vegan", "Vegan"], none⟩ ⟨⟨[], 1⟩, ⟨[], 1⟩, 1⟩
      "Vegan" ["Vegan", "Vegan"] (by decide) (by decide) (by decide) (by decide) rfl
      (by decide)⟩

end RecipeApp
